import Mathlib

/-!
Verification of the Yiyin-Bot image plugins.

This file shallowly embeds the two algorithmic cores of the repository:

* `yiyin/symmetric/__init__.py` — the per-frame mirror transform
  `_apply_symmetric`, the animated pipeline `_process_animated`, and the
  direction parsing of `handle_symmetric`;
* `yiyin/quotes/draw.py` — the character measurement `_char_width`, the line
  measurement `_measure_line`, the greedy wrapper `_wrap_text`, and the
  bubble-width computation of `generate_chat_screenshot`.

Modelling conventions: a Python `str` is a `List Char`; a PIL image is a
width, a height and a pixel function (pixel values outside the declared
bounds are irrelevant, image equality is `Img.eqv`, equality on the
declared domain); float pixel widths are modelled as rationals; Python
`int()` truncation toward zero is `pyInt`.
-/

namespace Yiyin

/-! ## Image model (PIL operations used by the symmetric plugin) -/

/-- An RGBA pixel: four channel values. -/
abbrev Pixel := Nat × Nat × Nat × Nat

/-- A raster image: width, height and a pixel lookup function.
Only the values `pix x y` with `x < w`, `y < h` are meaningful. -/
structure Img where
  w : Nat
  h : Nat
  pix : Nat → Nat → Pixel

/-- PIL `Image.crop((l, t, r, b))`: the axis-aligned sub-image. -/
def Img.crop (img : Img) (l t r b : Nat) : Img :=
  ⟨r - l, b - t, fun x y => img.pix (l + x) (t + y)⟩

/-- PIL `transpose(FLIP_LEFT_RIGHT)`: horizontal mirror. -/
def Img.flipLR (img : Img) : Img :=
  ⟨img.w, img.h, fun x y => img.pix (img.w - 1 - x) y⟩

/-- PIL `transpose(FLIP_TOP_BOTTOM)`: vertical mirror. -/
def Img.flipTB (img : Img) : Img :=
  ⟨img.w, img.h, fun x y => img.pix x (img.h - 1 - y)⟩

/-- PIL `Image.new(mode, (w, h))`: a blank image (all channels zero). -/
def Img.new (w h : Nat) : Img :=
  ⟨w, h, fun _ _ => (0, 0, 0, 0)⟩

/-- PIL `base.paste(src, (px, py))`: overwrite the rectangle of `src`
at offset `(px, py)`; the base size is unchanged. -/
def Img.paste (base src : Img) (px py : Nat) : Img :=
  ⟨base.w, base.h, fun x y =>
    if px ≤ x ∧ x < px + src.w ∧ py ≤ y ∧ y < py + src.h then
      src.pix (x - px) (y - py)
    else
      base.pix x y⟩

/-- PIL `Image.copy()`. -/
def Img.copy (img : Img) : Img := img

/-- Image equality: same size and same pixels on the declared domain. -/
def Img.eqv (a b : Img) : Prop :=
  a.w = b.w ∧ a.h = b.h ∧ ∀ x < a.w, ∀ y < a.h, a.pix x y = b.pix x y

instance (a b : Img) : Decidable (Img.eqv a b) := by
  unfold Img.eqv; exact inferInstance

/-- The left half of the image already is the mirror of the right half
(the configuration for which the first mirror pass changes nothing). -/
def leftMirrorsRight (img : Img) : Prop :=
  ∀ x < img.w / 2, ∀ y < img.h, img.pix x y = img.pix (img.w - 1 - x) y

instance (img : Img) : Decidable (leftMirrorsRight img) := by
  unfold leftMirrorsRight; exact inferInstance

/-! ## The symmetric transform (`_apply_symmetric`, lines 31–76) -/

/-- `VALID_DIRECTIONS` from the plugin. -/
def VALID_DIRECTIONS : List String := ["左", "右", "上", "下"]

/-- `DEFAULT_DIRECTION` from the plugin. -/
def DEFAULT_DIRECTION : String := "左"

/-- `_apply_symmetric(img, direction)`: keep one half of the frame and
mirror it onto the other half; an unrecognized direction returns a copy. -/
def applySymmetric (img : Img) (direction : String) : Img :=
  if direction = "左" then
    let half := img.w / 2
    let lhalf := img.crop 0 0 half img.h
    let mirrored := lhalf.flipLR
    ((Img.new (half * 2) img.h).paste lhalf 0 0).paste mirrored half 0
  else if direction = "右" then
    let half := img.w / 2
    let rhalf := img.crop (img.w - half) 0 img.w img.h
    let mirrored := rhalf.flipLR
    ((Img.new (half * 2) img.h).paste mirrored 0 0).paste rhalf half 0
  else if direction = "上" then
    let half := img.h / 2
    let thalf := img.crop 0 0 img.w half
    let mirrored := thalf.flipTB
    ((Img.new img.w (half * 2)).paste thalf 0 0).paste mirrored 0 half
  else if direction = "下" then
    let half := img.h / 2
    let bhalf := img.crop 0 (img.h - half) img.w img.h
    let mirrored := bhalf.flipTB
    ((Img.new img.w (half * 2)).paste mirrored 0 0).paste bhalf 0 half
  else
    img.copy

/-! ## The animated pipeline (`_process_animated`, lines 92–138) -/

/-- One decoded source frame: its image and the optional `duration`
entry of `frame.info` (milliseconds). -/
structure Frame where
  img : Img
  duration : Option Int

/-- The duration computation of the frame loop:
`duration = frame.info.get("duration", 100); if duration <= 0: duration = 100`. -/
def normDuration (d : Option Int) : Int :=
  let v := d.getD 100
  if v ≤ 0 then 100 else v

/-- `_process_animated`: collect per-frame durations, mirror every frame,
then re-encode the frames as a GIF.  The palette quantization of the GIF
encoding step (RGB → adaptive P mode with a reserved transparent index)
is abstracted as the per-frame function `quant`; it is applied
frame-by-frame exactly as in the source and is irrelevant to frame count
and timing.  Raises (here: `Except.error`) when there is no frame. -/
def processAnimated (quant : Img → Img) (frames : List Frame)
    (direction : String) : Except String (List Img × List Int) :=
  let durations := frames.map (fun f => normDuration f.duration)
  let processed := frames.map (fun f => applySymmetric f.img direction)
  if processed.isEmpty then
    Except.error "动图中没有有效帧"
  else
    Except.ok (processed.map quant, durations)

/-! ## Direction parsing (`handle_symmetric`, lines 168–175) -/

/-- The direction-parsing prefix of `handle_symmetric`, applied to the
stripped plain text of the command argument: start from the default,
override with the first character when it is a recognized direction. -/
def parseDirection (text : List Char) : String :=
  match text with
  | [] => DEFAULT_DIRECTION
  | c :: _ =>
    if VALID_DIRECTIONS.contains (Char.toString c) then Char.toString c
    else DEFAULT_DIRECTION

/-! ## Character measurement (`_char_width`, lines 51–66) -/

/-- `_COMBINING_CODEPOINTS`: ZWJ and the two variant selectors. -/
def COMBINING_CODEPOINTS : List Nat := [0x200D, 0xFE0E, 0xFE0F]

/-- The zero-width test of `_char_width`: combining codepoints and the
emoji-tag range `0xE0020..0xE007F`. -/
def isZeroWidth (ch : Char) : Bool :=
  COMBINING_CODEPOINTS.contains ch.toNat ||
    (0xE0020 ≤ ch.toNat && ch.toNat ≤ 0xE007F)

/-- `_char_width(ch, font, emoji_w)`: zero for zero-width codepoints;
the font advance width otherwise, replaced by `emoji_w` when the font
reports less than one pixel for a codepoint above 255.  The font is
abstracted as its `getlength` function `Char → ℚ`. -/
def charWidth (font : Char → ℚ) (emojiW : ℚ) (ch : Char) : ℚ :=
  if isZeroWidth ch then 0
  else
    let w := font ch
    if w < 1 ∧ 255 < ch.toNat then emojiW else w

/-- `_measure_line(text, font, emoji_w)`: the sum of the character widths. -/
def measureLine (font : Char → ℚ) (emojiW : ℚ) (line : List Char) : ℚ :=
  (line.map (charWidth font emojiW)).sum

/-! ## Text wrapping (`_wrap_text`, lines 73–95) -/

/-- Python `text.split("\n")`: the newline-separated paragraphs,
empty paragraphs included; the empty string yields one empty paragraph. -/
def splitNl : List Char → List (List Char)
  | [] => [[]]
  | c :: rest =>
    match splitNl rest with
    | [] => [[]]
    | p :: ps => if c = '\n' then [] :: p :: ps else (c :: p) :: ps

/-- The inner character loop of `_wrap_text` on one paragraph: `buf` and
`cw` are the accumulated line and its width (`buf`, `current_w`); the
result is the list of lines appended from this state on, including the
final `if buf: lines.append(buf)` flush. -/
def wrapStep (font : Char → ℚ) (maxW emojiW : ℚ) :
    List Char → List Char → ℚ → List (List Char)
  | [], buf, _ => if buf = [] then [] else [buf]
  | ch :: rest, buf, cw =>
    let chW := charWidth font emojiW ch
    if maxW < cw + chW then
      (if buf = [] then [] else [buf]) ++ wrapStep font maxW emojiW rest [ch] chW
    else
      wrapStep font maxW emojiW rest (buf ++ [ch]) (cw + chW)

/-- The per-paragraph body of `_wrap_text`: an empty paragraph emits one
empty line; otherwise run the character loop from an empty buffer. -/
def wrapParagraph (font : Char → ℚ) (maxW emojiW : ℚ) (p : List Char) :
    List (List Char) :=
  if p = [] then [[]] else wrapStep font maxW emojiW p [] 0

/-- `_wrap_text(text, font, max_width, emoji_w)`: wrap each paragraph in
order; `return lines or [""]`. -/
def wrapText (font : Char → ℚ) (maxW emojiW : ℚ) (text : List Char) :
    List (List Char) :=
  let lines := (splitNl text).flatMap (wrapParagraph font maxW emojiW)
  if lines = [] then [[]] else lines

/-! ## Bubble width (`generate_chat_screenshot`, lines 117–137) -/

/-- `_BUBBLE_PH`: horizontal bubble padding. -/
def BUBBLE_PH : Int := 22

/-- `_TEXT_FONT_SIZE`, also used as `emoji_w = float(_TEXT_FONT_SIZE)`. -/
def TEXT_FONT_SIZE : ℚ := 32

/-- `_MAX_TEXT_W`: the maximum text width passed to the wrapper. -/
def MAX_TEXT_W : ℚ := 600

/-- Python `int()` applied to a rational: truncation toward zero. -/
def pyInt (q : ℚ) : Int :=
  Int.tdiv q.num q.den

/-- One term of the `max_line_w` generator:
`_measure_line(ln if ln else " ", ...)`. -/
def lineMeasureOr (font : Char → ℚ) (emojiW : ℚ) (line : List Char) : ℚ :=
  measureLine font emojiW (if line = [] then [' '] else line)

/-- Python `max(...)` over the wrapped lines (the wrapped list is never
empty; the `[]` case is an unreachable default). -/
def maxLineW (font : Char → ℚ) (emojiW : ℚ) : List (List Char) → ℚ
  | [] => 0
  | [l] => lineMeasureOr font emojiW l
  | l :: l2 :: rest => max (lineMeasureOr font emojiW l) (maxLineW font emojiW (l2 :: rest))

/-- The bubble width of `generate_chat_screenshot`:
`bub_w = int(max_line_w) + _BUBBLE_PH * 2`, with
`wrapped = _wrap_text(text, text_font, _MAX_TEXT_W, emoji_w)`. -/
def bubbleWidth (font : Char → ℚ) (text : List Char) : Int :=
  let wrapped := wrapText font MAX_TEXT_W TEXT_FONT_SIZE text
  pyInt (maxLineW font TEXT_FONT_SIZE wrapped) + BUBBLE_PH * 2

/-! ## Concrete images used by witnesses and counterexamples -/

/-- A 5×2 image with pairwise distinct pixels. -/
def imgEx : Img := ⟨5, 2, fun x y => (x, y, 0, 0)⟩

/-- A 2×1 image whose two pixels differ, so its left half is not the
mirror of its right half. -/
def imgC3 : Img := ⟨2, 1, fun x _ => (x, 0, 0, 0)⟩

/-- A 3-frame animation over `imgEx` with durations `0`, absent, `40`. -/
def frameEx : List Frame := [⟨imgEx, some 0⟩, ⟨imgEx, none⟩, ⟨imgEx, some 40⟩]

/-! ## Helper lemmas about the left mirror -/

lemma applySymmetric_left_eq (img : Img) :
    applySymmetric img "左" =
      ((Img.new (img.w / 2 * 2) img.h).paste (img.crop 0 0 (img.w / 2) img.h) 0 0).paste
        (img.crop 0 0 (img.w / 2) img.h).flipLR (img.w / 2) 0 := rfl

lemma symLeft_w (img : Img) : (applySymmetric img "左").w = img.w / 2 * 2 := rfl

lemma symLeft_h (img : Img) : (applySymmetric img "左").h = img.h := rfl

lemma symLeft_pix_lo (img : Img) (x y : Nat) (hx : x < img.w / 2) (hy : y < img.h) :
    (applySymmetric img "左").pix x y = img.pix x y := by
  rw [applySymmetric_left_eq]
  simp only [Img.paste, Img.crop, Img.flipLR, Img.new]
  rw [if_neg (by omega), if_pos (by omega)]
  simp

lemma symLeft_pix_hi (img : Img) (x y : Nat) (hx1 : img.w / 2 ≤ x)
    (hx2 : x < img.w / 2 * 2) (hy : y < img.h) :
    (applySymmetric img "左").pix x y = img.pix (img.w / 2 * 2 - 1 - x) y := by
  rw [applySymmetric_left_eq]
  simp only [Img.paste, Img.crop, Img.flipLR, Img.new]
  rw [if_pos (by omega)]
  simp only [Nat.sub_zero, Nat.zero_add]
  have hidx : img.w / 2 - 1 - (x - img.w / 2) = img.w / 2 * 2 - 1 - x := by omega
  rw [hidx]

/-! ## Claim theorems: the symmetric transform -/

/-- C1: the direction-"左" transform on a W×H image returns an image of
size `(2*(W/2), H)` (an even width); columns `[0, W/2)` are the source
left half and columns `[W/2, 2*(W/2))` are its horizontal mirror. -/
theorem symmetric_left_halves (img : Img) :
    (applySymmetric img "左").w = 2 * (img.w / 2) ∧
    (applySymmetric img "左").w % 2 = 0 ∧
    (applySymmetric img "左").h = img.h ∧
    (∀ x y, x < img.w / 2 → y < img.h →
      (applySymmetric img "左").pix x y = img.pix x y) ∧
    (∀ x y, img.w / 2 ≤ x → x < 2 * (img.w / 2) → y < img.h →
      (applySymmetric img "左").pix x y = img.pix (2 * (img.w / 2) - 1 - x) y) := by
  refine ⟨?_, ?_, symLeft_h img, ?_, ?_⟩
  · rw [symLeft_w]; omega
  · rw [symLeft_w]; omega
  · exact fun x y hx hy => symLeft_pix_lo img x y hx hy
  · intro x y hx1 hx2 hy
    rw [symLeft_pix_hi img x y hx1 (by omega) hy]
    have hidx : img.w / 2 * 2 - 1 - x = 2 * (img.w / 2) - 1 - x := by omega
    rw [hidx]

/-- Witness for C1 at the 5×2 image `imgEx`: column 1 is kept, output
column 3 mirrors source column 0. -/
theorem symmetric_left_halves_witness :
    (applySymmetric imgEx "左").pix 1 1 = imgEx.pix 1 1 ∧
    (applySymmetric imgEx "左").pix 3 1 = imgEx.pix 0 1 := by
  constructor
  · exact (symmetric_left_halves imgEx).2.2.2.1 1 1 (by decide) (by decide)
  · exact (symmetric_left_halves imgEx).2.2.2.2 3 1 (by decide) (by decide) (by decide)

/-- C3 counterexample: `imgC3` has a left half that is not the mirror of
its right half, yet applying the "左" transform twice gives exactly the
same image as applying it once — refuting the claim that the second
output differs from the first for such inputs. -/
theorem symmetric_left_twice_cex :
    ¬ leftMirrorsRight imgC3 ∧
    Img.eqv (applySymmetric (applySymmetric imgC3 "左") "左")
      (applySymmetric imgC3 "左") := by
  decide

/-- C3 (amended): applying the "左" transform twice is idempotent — for
every input, the second application returns the same image (same size and
pixels) as the first, because the left half of the first output is the
original left half. -/
theorem symmetric_left_twice_idem (img : Img) :
    Img.eqv (applySymmetric (applySymmetric img "左") "左")
      (applySymmetric img "左") := by
  have hw := symLeft_w img
  have hh := symLeft_h img
  have hhalf : (applySymmetric img "左").w / 2 = img.w / 2 := by rw [hw]; omega
  refine ⟨?_, symLeft_h (applySymmetric img "左"), ?_⟩
  · rw [symLeft_w (applySymmetric img "左"), hhalf, hw]
  · intro x hx y hy
    have hxw : x < img.w / 2 * 2 := by
      rwa [symLeft_w (applySymmetric img "左"), hhalf] at hx
    have hyh : y < img.h := by
      rwa [symLeft_h (applySymmetric img "左"), hh] at hy
    by_cases hlt : x < img.w / 2
    · rw [symLeft_pix_lo (applySymmetric img "左") x y (by rwa [hhalf]) (by rwa [hh])]
    · have hge : img.w / 2 ≤ x := Nat.le_of_not_lt hlt
      rw [symLeft_pix_hi (applySymmetric img "左") x y (by rwa [hhalf])
        (by rw [hhalf]; exact hxw) (by rwa [hh]), hhalf]
      rw [symLeft_pix_lo img _ y (by omega) hyh]
      rw [symLeft_pix_hi img x y hge hxw hyh]

/-- C8: for any direction outside the recognized set, the per-frame
operation returns an unmodified copy of the frame — same size, same
pixels — and, being a total function, never an error. -/
theorem symmetric_unrecognized_copy (img : Img) (d : String)
    (h : d ∉ VALID_DIRECTIONS) :
    applySymmetric img d = img.copy ∧
    (applySymmetric img d).w = img.w ∧
    (applySymmetric img d).h = img.h ∧
    ∀ x y, (applySymmetric img d).pix x y = img.pix x y := by
  have h' : ¬(d = "左" ∨ d = "右" ∨ d = "上" ∨ d = "下") := by
    simpa [VALID_DIRECTIONS] using h
  push_neg at h'
  obtain ⟨h1, h2, h3, h4⟩ := h'
  have he : applySymmetric img d = img.copy := by
    simp only [applySymmetric, if_neg h1, if_neg h2, if_neg h3, if_neg h4]
  exact ⟨he, by rw [he]; rfl, by rw [he]; rfl, fun x y => by rw [he]; rfl⟩

/-- Witness for C8 at the unrecognized direction "斜". -/
theorem symmetric_unrecognized_copy_witness :
    "斜" ∉ VALID_DIRECTIONS ∧ applySymmetric imgEx "斜" = imgEx.copy :=
  ⟨by decide, (symmetric_unrecognized_copy imgEx "斜" (by decide)).1⟩

/-- C10: the parsed direction always lies in the recognized set, and when
the argument text is empty or its first character is not a recognized
direction, the default "左" is what reaches the per-frame operation — an
unrecognized token yields the left mirror, never the no-op copy branch. -/
theorem handler_direction_recognized (text : List Char) :
    parseDirection text ∈ VALID_DIRECTIONS ∧
    ((∀ c, text.head? = some c → Char.toString c ∉ VALID_DIRECTIONS) →
      parseDirection text = DEFAULT_DIRECTION ∧
      ∀ img : Img, applySymmetric img (parseDirection text) = applySymmetric img "左") := by
  have hmem : DEFAULT_DIRECTION ∈ VALID_DIRECTIONS := by decide
  cases text with
  | nil => exact ⟨hmem, fun _ => ⟨rfl, fun img => rfl⟩⟩
  | cons c rest =>
    by_cases hc : VALID_DIRECTIONS.contains (Char.toString c)
    · have hcm : Char.toString c ∈ VALID_DIRECTIONS := by
        unfold List.contains at hc; exact List.elem_iff.mp hc
      constructor
      · simp only [parseDirection, if_pos hc]
        exact hcm
      · intro hnone
        exact absurd hcm (hnone c rfl)
    · refine ⟨?_, fun _ => ⟨?_, fun img => ?_⟩⟩
      · simp only [parseDirection, if_neg hc]
        exact hmem
      · simp only [parseDirection, if_neg hc]
      · simp only [parseDirection, if_neg hc]
        rfl

/-- Witness for C10 at the unrecognized argument text "xy". -/
theorem handler_direction_recognized_witness :
    parseDirection ['x', 'y'] ∈ VALID_DIRECTIONS ∧
    parseDirection ['x', 'y'] = DEFAULT_DIRECTION := by
  have h := handler_direction_recognized ['x', 'y']
  refine ⟨h.1, (h.2 ?_).1⟩
  intro c hc
  simp only [List.head?_cons, Option.some.injEq] at hc
  subst hc
  decide

/-- C4: a nonempty animated input with N frames yields N output frames,
and each output duration is the source duration, with absent or
non-positive source durations replaced by 100 ms. -/
theorem animated_frames_durations (quant : Img → Img) (frames : List Frame)
    (d : String) (h : frames ≠ []) :
    ∃ gifs durs, processAnimated quant frames d = Except.ok (gifs, durs) ∧
      gifs.length = frames.length ∧
      durs = frames.map (fun f =>
        match f.duration with
        | none => (100 : Int)
        | some v => if v ≤ 0 then (100 : Int) else v) := by
  have hne : (frames.map (fun f => applySymmetric f.img d)).isEmpty = false := by
    cases frames with
    | nil => exact absurd rfl h
    | cons a l => rfl
  unfold processAnimated
  simp only [hne, Bool.false_eq_true, if_false]
  refine ⟨_, _, rfl, ?_, ?_⟩
  · simp
  · refine List.map_congr_left (fun f _ => ?_)
    cases f.duration with
    | none => rfl
    | some v => simp [normDuration]

/-- Witness for C4 at the 3-frame animation `frameEx`. -/
theorem animated_frames_durations_witness :
    frameEx ≠ [] ∧
    ∃ gifs durs, processAnimated id frameEx "左" = Except.ok (gifs, durs) ∧
      gifs.length = frameEx.length ∧
      durs = frameEx.map (fun f =>
        match f.duration with
        | none => (100 : Int)
        | some v => if v ≤ 0 then (100 : Int) else v) :=
  ⟨by simp [frameEx], animated_frames_durations id frameEx "左" (by simp [frameEx])⟩

/-! ## Helper lemmas about measurement and wrapping -/

lemma measureLine_nil (font : Char → ℚ) (emojiW : ℚ) :
    measureLine font emojiW [] = 0 := rfl

lemma measureLine_cons (font : Char → ℚ) (emojiW : ℚ) (c : Char) (l : List Char) :
    measureLine font emojiW (c :: l) =
      charWidth font emojiW c + measureLine font emojiW l := by
  simp [measureLine]

lemma measureLine_append (font : Char → ℚ) (emojiW : ℚ) (a b : List Char) :
    measureLine font emojiW (a ++ b) =
      measureLine font emojiW a + measureLine font emojiW b := by
  simp [measureLine]

lemma measureLine_singleton (font : Char → ℚ) (emojiW : ℚ) (c : Char) :
    measureLine font emojiW [c] = charWidth font emojiW c := by
  simp [measureLine]

lemma charWidth_nonneg (font : Char → ℚ) (emojiW : ℚ)
    (hf : ∀ ch, 0 ≤ font ch) (he : 0 ≤ emojiW) (ch : Char) :
    0 ≤ charWidth font emojiW ch := by
  unfold charWidth
  split
  · exact le_refl 0
  · dsimp only
    split
    · exact he
    · exact hf ch

lemma measureLine_nonneg (font : Char → ℚ) (emojiW : ℚ)
    (hnn : ∀ ch, 0 ≤ charWidth font emojiW ch) (l : List Char) :
    0 ≤ measureLine font emojiW l := by
  induction l with
  | nil => exact le_refl 0
  | cons c l ih =>
    rw [measureLine_cons]
    exact add_nonneg (hnn c) ih

lemma wrapStep_flatten (font : Char → ℚ) (maxW emojiW : ℚ) :
    ∀ (rest buf : List Char) (cw : ℚ),
      (wrapStep font maxW emojiW rest buf cw).flatten = buf ++ rest := by
  intro rest
  induction rest with
  | nil =>
    intro buf cw
    by_cases h : buf = [] <;> simp [wrapStep, h]
  | cons ch rest ih =>
    intro buf cw
    simp only [wrapStep]
    split
    · by_cases h : buf = [] <;> simp [h, ih]
    · simp [ih]

lemma wrapStep_ne_nil (font : Char → ℚ) (maxW emojiW : ℚ) :
    ∀ (rest buf : List Char) (cw : ℚ), buf ≠ [] ∨ rest ≠ [] →
      wrapStep font maxW emojiW rest buf cw ≠ [] := by
  intro rest
  induction rest with
  | nil =>
    intro buf cw h
    have hb : buf ≠ [] := by
      rcases h with h | h
      · exact h
      · exact absurd rfl h
    simp [wrapStep, hb]
  | cons ch rest ih =>
    intro buf cw _
    simp only [wrapStep]
    split
    · exact List.append_ne_nil_of_right_ne_nil _
        (ih [ch] _ (Or.inl (List.cons_ne_nil ch [])))
    · exact ih (buf ++ [ch]) _ (Or.inl (by simp))

lemma wrapStep_widths (font : Char → ℚ) (maxW emojiW : ℚ) :
    ∀ (rest buf : List Char) (cw : ℚ),
      cw = measureLine font emojiW buf →
      (buf = [] ∨ buf.length = 1 ∨ cw ≤ maxW) →
      ∀ line ∈ wrapStep font maxW emojiW rest buf cw,
        line.length = 1 ∨ measureLine font emojiW line ≤ maxW := by
  intro rest
  induction rest with
  | nil =>
    intro buf cw hcw hinv line hline
    by_cases h : buf = []
    · simp [wrapStep, h] at hline
    · simp only [wrapStep, if_neg h, List.mem_singleton] at hline
      subst hline
      rcases hinv with h0 | h1 | h2
      · exact absurd h0 h
      · exact Or.inl h1
      · exact Or.inr (hcw ▸ h2)
  | cons ch rest ih =>
    intro buf cw hcw hinv line hline
    simp only [wrapStep] at hline
    split at hline
    · rw [List.mem_append] at hline
      rcases hline with hl | hl
      · by_cases hb : buf = []
        · simp [hb] at hl
        · simp only [if_neg hb, List.mem_singleton] at hl
          subst hl
          rcases hinv with h0 | h1 | h2
          · exact absurd h0 hb
          · exact Or.inl h1
          · exact Or.inr (hcw ▸ h2)
      · exact ih [ch] _ (measureLine_singleton font emojiW ch).symm
          (Or.inr (Or.inl rfl)) line hl
    · rename_i hnlt
      refine ih (buf ++ [ch]) _ ?_ (Or.inr (Or.inr (not_lt.mp hnlt))) line hline
      rw [measureLine_append, measureLine_singleton, hcw]

lemma wrapStep_no_wrap (font : Char → ℚ) (maxW emojiW : ℚ)
    (hnn : ∀ ch, 0 ≤ charWidth font emojiW ch) :
    ∀ (rest buf : List Char) (cw : ℚ),
      cw = measureLine font emojiW buf →
      cw + measureLine font emojiW rest ≤ maxW →
      (buf = [] → rest ≠ []) →
      wrapStep font maxW emojiW rest buf cw = [buf ++ rest] := by
  intro rest
  induction rest with
  | nil =>
    intro buf cw _ _ hne
    have hb : buf ≠ [] := fun h => (hne h) rfl
    simp [wrapStep, hb]
  | cons ch rest ih =>
    intro buf cw hcw hle hne
    have hrest : 0 ≤ measureLine font emojiW rest := measureLine_nonneg font emojiW hnn rest
    rw [measureLine_cons] at hle
    have hcond : ¬ (maxW < cw + charWidth font emojiW ch) := not_lt.mpr (by linarith)
    simp only [wrapStep, if_neg hcond]
    rw [ih (buf ++ [ch]) _ (by rw [measureLine_append, measureLine_singleton, hcw])
      (by linarith) (by simp)]
    simp

lemma wrapParagraph_flatten (font : Char → ℚ) (maxW emojiW : ℚ) (p : List Char) :
    (wrapParagraph font maxW emojiW p).flatten = p := by
  by_cases h : p = []
  · simp [wrapParagraph, h]
  · rw [wrapParagraph, if_neg h, wrapStep_flatten]
    rfl

lemma wrapParagraph_ne_nil (font : Char → ℚ) (maxW emojiW : ℚ) (p : List Char) :
    wrapParagraph font maxW emojiW p ≠ [] := by
  by_cases h : p = []
  · simp [wrapParagraph, h]
  · rw [wrapParagraph, if_neg h]
    exact wrapStep_ne_nil font maxW emojiW p [] 0 (Or.inr h)

lemma wrapParagraph_fit (font : Char → ℚ) (maxW emojiW : ℚ)
    (hnn : ∀ ch, 0 ≤ charWidth font emojiW ch) (p : List Char)
    (hp : measureLine font emojiW p ≤ maxW) :
    wrapParagraph font maxW emojiW p = [p] := by
  by_cases h : p = []
  · simp [wrapParagraph, h]
  · rw [wrapParagraph, if_neg h,
      wrapStep_no_wrap font maxW emojiW hnn p [] 0 rfl (by simpa using hp) (fun _ => h)]
    simp

lemma splitNl_ne_nil : ∀ text : List Char, splitNl text ≠ [] := by
  intro text
  cases text with
  | nil => simp [splitNl]
  | cons c rest =>
    simp only [splitNl]
    cases h : splitNl rest with
    | nil => simp
    | cons p ps =>
      dsimp only
      by_cases hc : c = '\n' <;> simp [hc]

lemma splitNl_flatten : ∀ text : List Char,
    (splitNl text).flatten = text.filter (fun c => c != '\n') := by
  intro text
  induction text with
  | nil => simp [splitNl]
  | cons c rest ih =>
    simp only [splitNl]
    cases h : splitNl rest with
    | nil => exact absurd h (splitNl_ne_nil rest)
    | cons p ps =>
      rw [h] at ih
      dsimp only
      by_cases hc : c = '\n'
      · subst hc
        rw [if_pos rfl]
        simp only [List.flatten_cons, List.nil_append, List.filter_cons]
        simpa using ih
      · rw [if_neg hc]
        simp only [List.flatten_cons, List.filter_cons]
        have hb : (c != '\n') = true := by simpa using hc
        rw [hb]
        simp only [List.flatten_cons] at ih
        simp [ih]

lemma wrapLines_flatten (font : Char → ℚ) (maxW emojiW : ℚ) :
    ∀ ps : List (List Char),
      ((ps.flatMap (wrapParagraph font maxW emojiW)).flatten = ps.flatten) := by
  intro ps
  induction ps with
  | nil => rfl
  | cons p ps ih =>
    simp only [List.flatMap_cons, List.flatten_append, List.flatten_cons,
      wrapParagraph_flatten, ih]

lemma wrapText_flatten (font : Char → ℚ) (maxW emojiW : ℚ) (text : List Char) :
    (wrapText font maxW emojiW text).flatten = text.filter (fun c => c != '\n') := by
  simp only [wrapText]
  split
  · rename_i h
    have h2 : (splitNl text).flatten = [] := by
      rw [← wrapLines_flatten font maxW emojiW (splitNl text), h]
      rfl
    rw [splitNl_flatten] at h2
    simp [← h2]
  · rw [wrapLines_flatten, splitNl_flatten]

lemma wrapText_fit (font : Char → ℚ) (maxW emojiW : ℚ) (text : List Char)
    (hf : ∀ ch, 0 ≤ font ch) (he : 0 ≤ emojiW)
    (hp : ∀ p ∈ splitNl text, measureLine font emojiW p ≤ maxW) :
    wrapText font maxW emojiW text = splitNl text := by
  have hnn := charWidth_nonneg font emojiW hf he
  have hmap : (splitNl text).flatMap (wrapParagraph font maxW emojiW) = splitNl text := by
    have hall : ∀ ps : List (List Char), (∀ p ∈ ps, measureLine font emojiW p ≤ maxW) →
        ps.flatMap (wrapParagraph font maxW emojiW) = ps := by
      intro ps
      induction ps with
      | nil => intro _; rfl
      | cons p ps ih =>
        intro hps
        rw [List.flatMap_cons, wrapParagraph_fit font maxW emojiW hnn p (hps p (by simp)),
          ih (fun q hq => hps q (by simp [hq]))]
        rfl
    exact hall (splitNl text) hp
  simp only [wrapText, hmap, if_neg (splitNl_ne_nil text)]

/-! ## Concrete fonts used by witnesses and counterexamples -/

/-- A font whose every advance width is 1 pixel. -/
def oneQFont : Char → ℚ := fun _ => 1

/-- A font whose every advance width is 10 pixels. -/
def tenQFont : Char → ℚ := fun _ => 10

/-- A font whose every advance width is the fractional value 10.5 pixels,
built with explicit numerator and denominator so that it evaluates. -/
def halfFont : Char → ℚ := fun _ => Rat.mk' 21 2 (by norm_num) (by norm_num)

lemma halfFont_val (ch : Char) : halfFont ch = 21 / 2 := by
  show (Rat.mk' 21 2 _ _ : ℚ) = 21 / 2
  rw [Rat.mk'_eq_divInt, Rat.divInt_eq_div]
  norm_num

/-! ## Claim theorems: measurement and wrapping -/

/-- C9: the wrapper loses, duplicates and reorders nothing — the
concatenation of all output lines is the input with its newline
characters removed. -/
theorem wrap_text_concat (font : Char → ℚ) (maxW emojiW : ℚ) (text : List Char) :
    (wrapText font maxW emojiW text).flatten = text.filter (fun c => c != '\n') :=
  wrapText_flatten font maxW emojiW text

/-- C2: with a nonnegative maximum width, every output line either is a
single character or measures at most the maximum width; consequently,
when no character of the input measures more than the maximum, every
output line measures at most the maximum. -/
theorem wrap_text_line_widths (font : Char → ℚ) (maxW emojiW : ℚ)
    (text : List Char) (hmax : 0 ≤ maxW) :
    (∀ line ∈ wrapText font maxW emojiW text,
      line.length = 1 ∨ measureLine font emojiW line ≤ maxW) ∧
    ((∀ ch ∈ text, charWidth font emojiW ch ≤ maxW) →
      ∀ line ∈ wrapText font maxW emojiW text,
        measureLine font emojiW line ≤ maxW) := by
  have hgen : ∀ line ∈ wrapText font maxW emojiW text,
      line.length = 1 ∨ measureLine font emojiW line ≤ maxW := by
    intro line hline
    simp only [wrapText] at hline
    split at hline
    · simp only [List.mem_singleton] at hline
      subst hline
      exact Or.inr (by rw [measureLine_nil]; exact hmax)
    · rw [List.mem_flatMap] at hline
      obtain ⟨p, _, hlp⟩ := hline
      by_cases hpe : p = []
      · subst hpe
        rw [wrapParagraph, if_pos rfl, List.mem_singleton] at hlp
        subst hlp
        exact Or.inr (by rw [measureLine_nil]; exact hmax)
      · rw [wrapParagraph, if_neg hpe] at hlp
        exact wrapStep_widths font maxW emojiW p [] 0 rfl (Or.inl rfl) line hlp
  refine ⟨hgen, fun hch line hline => ?_⟩
  rcases hgen line hline with h1 | h2
  · obtain ⟨c, rfl⟩ := List.length_eq_one.mp h1
    rw [measureLine_singleton]
    apply hch
    have hcf : c ∈ (wrapText font maxW emojiW text).flatten :=
      List.mem_flatten.mpr ⟨[c], hline, by simp⟩
    rw [wrapText_flatten] at hcf
    exact List.mem_of_mem_filter hcf
  · exact h2

/-- Witness for C2: with the all-ones font the single output line of
"ab" measures 2 ≤ 600. -/
theorem wrap_text_line_widths_witness :
    measureLine oneQFont 32 ['a', 'b'] ≤ 600 := by
  have hw : wrapText oneQFont 600 32 ['a', 'b'] = [['a', 'b']] := by
    rw [wrapText_fit oneQFont 600 32 ['a', 'b'] (fun _ => by norm_num [oneQFont])
      (by norm_num)]
    · decide
    · intro p hp
      have hs : splitNl ['a', 'b'] = [['a', 'b']] := by decide
      rw [hs, List.mem_singleton] at hp
      subst hp
      rw [measureLine_cons, measureLine_singleton]
      have h1 : charWidth oneQFont 32 'a' = 1 := by
        norm_num [charWidth, oneQFont, show isZeroWidth 'a' = false from by decide]
      have h2 : charWidth oneQFont 32 'b' = 1 := by
        norm_num [charWidth, oneQFont, show isZeroWidth 'b' = false from by decide]
      rw [h1, h2]
      norm_num
  exact (wrap_text_line_widths oneQFont 600 32 ['a', 'b'] (by norm_num)).2
    (fun ch hch => by
      rw [List.mem_cons, List.mem_singleton] at hch
      have h1 : charWidth oneQFont 32 ch = 1 := by
        rcases hch with rfl | rfl <;>
          norm_num [charWidth, oneQFont, show isZeroWidth 'a' = false from by decide,
            show isZeroWidth 'b' = false from by decide]
      rw [h1]; norm_num)
    ['a', 'b'] (by rw [hw]; exact List.mem_singleton.mpr rfl)

/-- C7: wrapping the empty string yields exactly one empty line, and when
every newline-separated paragraph fits within the maximum width (with a
font of nonnegative advance widths), the output is exactly the paragraph
list — line count equals paragraph count, empty paragraphs included. -/
theorem wrap_text_paragraphs (font : Char → ℚ) (maxW emojiW : ℚ) (text : List Char) :
    wrapText font maxW emojiW [] = [[]] ∧
    ((∀ ch, 0 ≤ font ch) → 0 ≤ emojiW →
      (∀ p ∈ splitNl text, measureLine font emojiW p ≤ maxW) →
      wrapText font maxW emojiW text = splitNl text) := by
  exact ⟨rfl, fun hf he hp => wrapText_fit font maxW emojiW text hf he hp⟩

/-- Witness for C7 at the input "a\n\nb" with the all-ones font: the
output is the three paragraphs "a", "", "b". -/
theorem wrap_text_paragraphs_witness :
    wrapText oneQFont 600 1 ['a', '\n', '\n', 'b'] = [['a'], [], ['b']] := by
  have h := (wrap_text_paragraphs oneQFont 600 1 ['a', '\n', '\n', 'b']).2
    (fun _ => by norm_num [oneQFont]) (by norm_num)
    (by
      intro p hp
      have hs : splitNl ['a', '\n', '\n', 'b'] = [['a'], [], ['b']] := by decide
      rw [hs] at hp
      simp only [List.mem_cons, List.not_mem_nil, or_false] at hp
      have h1 : ∀ c, isZeroWidth c = false → charWidth oneQFont 1 c = 1 := by
        intro c hc
        norm_num [charWidth, oneQFont, hc]
      rcases hp with rfl | rfl | rfl
      · rw [measureLine_singleton, h1 'a' (by decide)]; norm_num
      · rw [measureLine_nil]; norm_num
      · rw [measureLine_singleton, h1 'b' (by decide)]; norm_num)
  rw [h]
  decide

/-- C6 counterexample: wrapping "a&ZWJ;" (a letter followed by the
zero-width joiner U+200D) produces the single line "a&ZWJ;", which ends
with a zero-width codepoint although it also contains the ordinary
letter "a" — refuting the claim that no output line starts or ends with
such a codepoint unless the line consists only of them. -/
theorem wrap_zero_width_boundary_cex :
    isZeroWidth (Char.ofNat 0x200D) = true ∧
    isZeroWidth 'a' = false ∧
    (['a', Char.ofNat 0x200D] : List Char).getLast? = some (Char.ofNat 0x200D) ∧
    wrapText tenQFont 600 32 ['a', Char.ofNat 0x200D] = [['a', Char.ofNat 0x200D]] := by
  refine ⟨by decide, by decide, by decide, ?_⟩
  rw [wrapText_fit tenQFont 600 32 _ (fun _ => by norm_num [tenQFont]) (by norm_num)]
  · decide
  · intro p hp
    have hs : splitNl ['a', Char.ofNat 0x200D] = [['a', Char.ofNat 0x200D]] := by decide
    rw [hs, List.mem_singleton] at hp
    subst hp
    rw [measureLine_cons, measureLine_singleton]
    have h1 : charWidth tenQFont 32 'a' = 10 := by
      norm_num [charWidth, tenQFont, show isZeroWidth 'a' = false from by decide]
    have h2 : charWidth tenQFont 32 (Char.ofNat 0x200D) = 0 := by
      norm_num [charWidth, show isZeroWidth (Char.ofNat 0x200D) = true from by decide]
    rw [h1, h2]
    norm_num

/-- C6 (amended): the zero-width joiner, the two variant selectors and
the emoji-tag range contribute zero measured width; the wrapper keeps
them in place and does not prevent a line from starting or ending with
one. -/
theorem char_width_zero_width (font : Char → ℚ) (emojiW : ℚ) (ch : Char)
    (h : isZeroWidth ch = true) : charWidth font emojiW ch = 0 := by
  simp [charWidth, h]

/-- Witness for the amended C6 at the variant selector U+FE0F. -/
theorem char_width_zero_width_witness :
    isZeroWidth (Char.ofNat 0xFE0F) = true ∧
    charWidth (fun _ => (7 : ℚ)) 3 (Char.ofNat 0xFE0F) = 0 :=
  ⟨by decide, char_width_zero_width (fun _ => (7 : ℚ)) 3 (Char.ofNat 0xFE0F) (by decide)⟩

/-! ## Claim theorems: bubble width -/

lemma splitNl_single (c : Char) (hc : c ≠ '\n') : splitNl [c] = [[c]] := by
  simp [splitNl, hc]

lemma wrapText_single (font : Char → ℚ) (c : Char) (hc : c ≠ '\n') :
    wrapText font MAX_TEXT_W TEXT_FONT_SIZE [c] = [[c]] := by
  simp only [wrapText, splitNl_single c hc, List.flatMap_cons, List.flatMap_nil,
    List.append_nil]
  rw [wrapParagraph, if_neg (List.cons_ne_nil c [])]
  have hs : wrapStep font MAX_TEXT_W TEXT_FONT_SIZE [c] [] 0 = [[c]] := by
    simp only [wrapStep]
    split <;> simp [wrapStep]
  rw [hs]
  simp

lemma bubbleWidth_single (font : Char → ℚ) (c : Char) (hc : c ≠ '\n') :
    bubbleWidth font [c] = pyInt (charWidth font TEXT_FONT_SIZE c) + BUBBLE_PH * 2 := by
  simp only [bubbleWidth, wrapText_single font c hc, maxLineW, lineMeasureOr,
    if_neg (List.cons_ne_nil c []), measureLine_singleton]

/-- C5 counterexample: with a font whose advance width for "a" is the
fractional 10.5 pixels, the bubble for the one-character message "a" is
`int(10.5) + 2*22 = 54` pixels wide, which is strictly less than
`2*22 + 10.5 = 54.5` — refuting the claim that the bubble is never
narrower than twice the horizontal padding plus the measured character
width. -/
theorem bubble_one_char_cex :
    ¬ (2 * ((BUBBLE_PH : Int) : ℚ) + charWidth halfFont TEXT_FONT_SIZE 'a'
        ≤ ((bubbleWidth halfFont ['a'] : Int) : ℚ)) := by
  have hcw : charWidth halfFont TEXT_FONT_SIZE 'a' = halfFont 'a' := by
    norm_num [charWidth, halfFont_val, show isZeroWidth 'a' = false from by decide,
      show ¬(255 < Char.toNat 'a') from by decide]
  have hbw : bubbleWidth halfFont ['a'] = 54 := by
    rw [bubbleWidth_single halfFont 'a' (by decide), hcw]
    have : pyInt (halfFont 'a') = 10 := by decide
    rw [this, BUBBLE_PH]
    norm_num
  rw [hcw, hbw, halfFont_val, BUBBLE_PH]
  push_cast
  norm_num

/-- C5 (amended): for a one-character message whose character is not a
line break, the bubble width equals the integer-truncated measured
character width plus twice the horizontal padding; it is therefore at
least `2*padding + int(width(character))`, but can fall short of
`2*padding + width(character)` by the fractional part of the width. -/
theorem bubble_one_char_width (font : Char → ℚ) (c : Char) (hc : c ≠ '\n') :
    BUBBLE_PH * 2 + pyInt (charWidth font TEXT_FONT_SIZE c) ≤ bubbleWidth font [c] := by
  rw [bubbleWidth_single font c hc]
  omega

/-- Witness for the amended C5 at the all-ones font and the message "a". -/
theorem bubble_one_char_width_witness :
    'a' ≠ '\n' ∧
    BUBBLE_PH * 2 + pyInt (charWidth oneQFont TEXT_FONT_SIZE 'a') ≤
      bubbleWidth oneQFont ['a'] :=
  ⟨by decide, bubble_one_char_width oneQFont 'a' (by decide)⟩

end Yiyin
